import Mathlib

/-!
Shallow embedding of `src/ImgToPDF.py` (image-to-PDF merge tool): the natural sort
key, path classification, common-ancestor computation, the drag-and-drop payload
tokenizer, selection-state updates, the oversized-image audit, and the document
assembly step, together with theorems settling the specification claims.
-/

namespace ImgToPDF

/-- A resolved filesystem path, as its list of name components. -/
abbrev Path := List String

/-- Final component of a path, Python `Path.name` (empty for the root). -/
def pathName (p : Path) : String := p.getLastD ""

/-! ### Natural sort key (`natural_key`, lines 23-28) -/

/-- Typed token of a natural sort key: a lowercased text run or a numeric run. -/
inductive Tok where
  | str (s : List Char)
  | num (n : Nat)
deriving DecidableEq

/-- Three-way comparison of characters by code point, as Python compares strings. -/
def charCmp (a b : Char) : Ordering :=
  if a < b then .lt else if b < a then .gt else .eq

/-- Three-way comparison of natural numbers. -/
def natCmp (a b : Nat) : Ordering :=
  if a < b then .lt else if b < a then .gt else .eq

/-- Lexicographic three-way comparison of character lists (Python `str` comparison). -/
def strCmp : List Char → List Char → Ordering
  | [], [] => .eq
  | [], _ :: _ => .lt
  | _ :: _, [] => .gt
  | a :: as, b :: bs =>
    match charCmp a b with
    | .eq => strCmp as bs
    | o => o

/-- Comparison of two key tokens. Comparing a numeric token against a text token has
no defined result (`none`), mirroring Python raising `TypeError` on `int < str`. -/
def tokCmp : Tok → Tok → Option Ordering
  | .num a, .num b => some (natCmp a b)
  | .str a, .str b => some (strCmp a b)
  | _, _ => none

/-- Lexicographic comparison of token sequences: Python tuple comparison of sort keys.
A shorter sequence that is a prefix of the other compares less. -/
def keyCmp : List Tok → List Tok → Option Ordering
  | [], [] => some .eq
  | [], _ :: _ => some .lt
  | _ :: _, [] => some .gt
  | a :: as, b :: bs =>
    match tokCmp a b with
    | none => none
    | some .eq => keyCmp as bs
    | some o => some o

/-- Numeric value of a run of decimal digit characters, as Python `int` reads it. -/
def digitsVal (ds : List Char) : Nat :=
  ds.foldl (fun a c => a * 10 + (c.toNat - 48)) 0

/-- True on characters that are not decimal digits. -/
def nonDigit (c : Char) : Bool := !c.isDigit

/-- Fuel-indexed worker for `natKey`; the fuel only bounds the recursion depth and
`natKey` always supplies enough of it. -/
def natKeyF : Nat → List Char → List Tok
  | 0, _ => []
  | fuel + 1, cs =>
    Tok.str ((cs.takeWhile nonDigit).map Char.toLower) ::
      match cs.dropWhile nonDigit with
      | [] => []
      | c :: t =>
        Tok.num (digitsVal ((c :: t).takeWhile Char.isDigit)) ::
          natKeyF fuel ((c :: t).dropWhile Char.isDigit)

/-- Embedding of `natural_key` (lines 23-28) on a file name's characters:
`re.split(r"(\d+)", name)` yields alternating non-digit and digit runs (the outermost
runs possibly empty); digit runs become `int` tokens, other runs are lowercased. -/
def natKey (cs : List Char) : List Tok := natKeyF (cs.length + 1) cs

/-- True when an element-wise key comparison came out strictly greater. -/
def isGt : Option Ordering → Bool
  | some .gt => true
  | _ => false

/-- Stable insertion used by `sortBy`: `x` goes in front of the first element strictly
greater than it, so earlier equal elements keep their relative place. -/
def insertBy (gt : α → α → Bool) (x : α) : List α → List α
  | [] => [x]
  | y :: ys => if gt y x then x :: y :: ys else y :: insertBy gt x ys

/-- Stable sort modelling Python `list.sort(key=...)`. -/
def sortBy (gt : α → α → Bool) (l : List α) : List α :=
  l.foldl (fun acc x => insertBy gt x acc) []

/-- Strict-greater test between two file names under `natural_key`. -/
def nameGt (a b : List Char) : Bool := isGt (keyCmp (natKey a) (natKey b))

/-- Sorting file names with the natural key, as `files.sort(key=natural_key)` does. -/
def sortNames (l : List (List Char)) : List (List Char) := sortBy nameGt l

/-! ### Path classification (`is_image`, lines 31-32) -/

/-- Index of the last dot in a name, Python `name.rfind('.')` (none when absent). -/
def rfindDot : List Char → Option Nat
  | [] => none
  | c :: t =>
    match rfindDot t with
    | some i => some (i + 1)
    | none => if c = '.' then some 0 else none

/-- Python `PurePath.suffix` of a file name: the part from the last dot on, provided
that dot is neither the first nor the last character; otherwise empty. -/
def suffixOf (name : List Char) : List Char :=
  match rfindDot name with
  | none => []
  | some i => if 0 < i ∧ i < name.length - 1 then name.drop i else []

/-- The supported extensions (line 20). -/
def SUPPORTED_EXTS : List (List Char) := [".jpg".data, ".jpeg".data, ".png".data]

/-- Filesystem facts the program queries: existence, kind tests, and the result of
`folder.glob(pattern)` for the recursive flag in force. -/
structure Env where
  fexists : Path → Bool
  isDir : Path → Bool
  isFile : Path → Bool
  glob : Path → List Path

/-- Embedding of `is_image` (lines 31-32): an existing regular file whose suffix,
lowercased, is one of the supported extensions. -/
def is_image (E : Env) (p : Path) : Bool :=
  E.isFile p && SUPPORTED_EXTS.contains ((suffixOf (pathName p).data).map Char.toLower)

/-- The natural key of a path is the key of its final component (`p.name`). -/
def natural_key (p : Path) : List Tok := natKey (pathName p).data

/-- Strict-greater test between two paths under `natural_key`. -/
def pathGt (a b : Path) : Bool := isGt (keyCmp (natural_key a) (natural_key b))

/-- Embedding of `list_images_in_folder` (lines 35-39): glob the folder, keep images,
sort by the natural key. -/
def list_images_in_folder (E : Env) (folder : Path) : List Path :=
  sortBy pathGt ((E.glob folder).filter (is_image E))

/-! ### Common ancestor (`common_parent`, lines 42-49) -/

/-- Component-wise common prefix of two paths: one step of `os.path.commonpath`. -/
def cpfx : Path → Path → Path
  | a :: as, b :: bs => if a = b then a :: cpfx as bs else []
  | _, _ => []

/-- `os.path.commonpath` over a list of component paths: fold the two-path common
prefix over the list. -/
def commonpath : List Path → Path
  | [] => []
  | p :: ps => ps.foldl cpfx p

/-- Embedding of `common_parent` (lines 42-49): an empty list raises `ValueError`
(`none` here); otherwise each path is replaced by its parent when it is a regular
file and the component-wise common path of the results is returned. -/
def common_parent (isf : Path → Bool) (paths : List Path) : Option Path :=
  match paths with
  | [] => none
  | _ :: _ => some (commonpath (paths.map (fun p => if isf p then p.dropLast else p)))

/-! ### Document assembly (`convert_images_to_pdf`, lines 52-73) -/

/-- Width and height of one output page, in image pixels. -/
structure PDFPage where
  w : Nat
  h : Nat
deriving DecidableEq

/-- Contents of a file in the model: empty (freshly truncated) or a finished
document. -/
inductive FileData where
  | empty
  | pdf (pages : List PDFPage)
deriving DecidableEq

/-- Filesystem state: file contents by path, plus the log of directories created. -/
structure FS where
  files : Path → Option FileData
  dirs : List Path

/-- `path.parent.mkdir(parents=True, exist_ok=True)`: records the directory creation,
touches no file. -/
def FS.mkdirp (fs : FS) (d : Path) : FS := ⟨fs.files, fs.dirs ++ [d]⟩

/-- `path.open("wb")`: creates the file, truncating whatever was there. -/
def FS.openTrunc (fs : FS) (p : Path) : FS :=
  ⟨fun q => if q = p then some .empty else fs.files q, fs.dirs⟩

/-- One full `f.write(bytes)` of a finished document. -/
def FS.writeAll (fs : FS) (p : Path) (d : FileData) : FS :=
  ⟨fun q => if q = p then some d else fs.files q, fs.dirs⟩

/-- All-or-nothing traversal: `some` of all results, or `none` on the first failure. -/
def mapOpt (f : α → Option β) : List α → Option (List β)
  | [] => some []
  | a :: as =>
    match f a, mapOpt f as with
    | some b, some bs => some (b :: bs)
    | _, _ => none

/-- Modelled from the spec: `img2pdf.convert` with `pagesize=None` and
`fitmode=exact` is an external collaborator (spec section 6); per its contract it
decodes every input and yields one page per image whose dimensions equal that
image's pixel dimensions, or fails as a whole if any input cannot be decoded. -/
def encodeDoc (decode : Path → Option PDFPage) (ps : List Path) : Option (List PDFPage) :=
  mapOpt decode ps

/-- Embedding of `convert_images_to_pdf` (lines 52-73). An empty list raises before
any I/O. Otherwise the output's parent directory is created, the output file is
opened with mode `"wb"` (truncating any previous file), and `img2pdf.convert` runs:
on success its full result is written, on failure the `with` block closes the
truncated file. Returns the new filesystem and whether conversion succeeded. -/
def convert_images_to_pdf (decode : Path → Option PDFPage) (fs : FS)
    (image_paths : List Path) (output_pdf : Path) : FS × Bool :=
  match image_paths with
  | [] => (fs, false)
  | _ :: _ =>
    let fs2 := (fs.mkdirp output_pdf.dropLast).openTrunc output_pdf
    match encodeDoc decode image_paths with
    | none => (fs2, false)
    | some pages => (fs2.writeAll output_pdf (.pdf pages), true)

/-! ### Oversized-image audit (`warn_huge_images`, lines 76-88) -/

/-- Embedding of `warn_huge_images` (lines 76-88): for each image try to read its
pixel size; emit `(name, w, h)` when `w * h >= 40_000_000`; a read failure is
swallowed (no warning, no error). `readSize` stands for `Image.open(p).size`. -/
def warn_huge_images (readSize : Path → Option (Nat × Nat)) (image_paths : List Path) :
    List (String × Nat × Nat) :=
  image_paths.filterMap fun p =>
    match readSize p with
    | some (w, h) => if 40000000 ≤ w * h then some (pathName p, w, h) else none
    | none => none

/-! ### Selection state and UI routing (lines 91-95, 276-293, 295-347) -/

/-- Embedding of `SelectionState` (lines 91-95). -/
structure SelectionState where
  mode : String
  source : Option Path
  images : List Path
deriving DecidableEq

/-- Embedding of `pick_files` (lines 276-293) after the file dialog returned
`filepaths`: an empty pick returns silently; otherwise the pick is filtered by
`is_image`; when nothing qualifies a warning is shown (second component `true`) and
the previous state is kept; otherwise the files are sorted, their common parent is
computed and the state is replaced. -/
def pick_files (E : Env) (prev : SelectionState) (filepaths : List Path) :
    SelectionState × Bool :=
  match filepaths with
  | [] => (prev, false)
  | _ :: _ =>
    match filepaths.filter (fun p => is_image E p) with
    | [] => (prev, true)
    | f :: fs =>
      let sorted := sortBy pathGt (f :: fs)
      (⟨"files", common_parent E.isFile sorted, sorted⟩, false)

/-! #### Drop payload tokenizer (`on_drop`, lines 305-324) -/

/-- Python `str.isspace` restricted to the ASCII whitespace characters. -/
def pyIsSpace (c : Char) : Bool :=
  c = ' ' || c = '\t' || c = '\n' || c = '\r' || c = '\x0b' || c = '\x0c'

/-- Scanner state of the brace-aware tokenizer: tokens emitted so far, the token in
progress, and the inside-braces flag. -/
structure DropSt where
  paths : List (List Char)
  buf : List Char
  inBrace : Bool
deriving DecidableEq

/-- One character step of the tokenizer loop (lines 308-322). An opening brace sets
the flag and clears the buffer; a closing brace clears the flag and flushes a
non-empty buffer; whitespace outside braces flushes a non-empty buffer; any other
character (and whitespace inside braces) is appended to the buffer. -/
def dropStep (st : DropSt) (ch : Char) : DropSt :=
  if ch = '\x7b' then ⟨st.paths, [], true⟩
  else if ch = '\x7d' then
    if st.buf.isEmpty then ⟨st.paths, [], false⟩ else ⟨st.paths ++ [st.buf], [], false⟩
  else if pyIsSpace ch && !st.inBrace then
    if st.buf.isEmpty then st else ⟨st.paths ++ [st.buf], [], st.inBrace⟩
  else ⟨st.paths, st.buf ++ [ch], st.inBrace⟩

/-- Embedding of the tokenizer of `on_drop` (lines 305-324): fold the step over the
raw payload and flush a non-empty final buffer. -/
def parse_drop (raw : List Char) : List (List Char) :=
  let st := raw.foldl dropStep ⟨[], [], false⟩
  if st.buf.isEmpty then st.paths else st.paths ++ [st.buf]

/-- Embedding of the routing part of `on_drop` (lines 326-347), taking the dropped
paths after tokenizing and `Path(...)` resolution. When some dropped path is an
existing directory, the first one wins: the state is rebuilt from that folder alone
(with a warning when it holds no image). Otherwise the existing image files are
kept; with none, a warning is shown and the previous state is kept; else the files
are sorted, their common parent computed, and the state replaced. -/
def on_drop (E : Env) (prev : SelectionState) (dropped : List Path) :
    SelectionState × Bool :=
  match dropped.filter (fun p => E.fexists p && E.isDir p) with
  | folder :: _ =>
    let images := list_images_in_folder E folder
    (⟨"folder", some folder, images⟩, images.isEmpty)
  | [] =>
    match dropped.filter (fun p => E.fexists p && is_image E p) with
    | [] => (prev, true)
    | f :: fs =>
      let sorted := sortBy pathGt (f :: fs)
      (⟨"files", common_parent E.isFile sorted, sorted⟩, false)

/-! ### Order lemmas for the natural key -/

theorem uint32_le_iff {a b : UInt32} : a ≤ b ↔ a.toNat ≤ b.toNat :=
  UInt32.le_def.trans BitVec.le_def

theorem isDigit_toLower (c : Char) : (Char.toLower c).isDigit = c.isDigit := by
  by_cases h : c.toNat ≥ 65 ∧ c.toNat ≤ 90
  · have hv : (c.toNat + 32).isValidChar := Or.inl (by omega)
    have hval : (Char.ofNat (c.toNat + 32)).toNat = c.toNat + 32 := by
      unfold Char.ofNat
      rw [dif_pos hv]
      exact BitVec.toNat_ofNatLt _ _
    have h1 : Char.toLower c = Char.ofNat (c.toNat + 32) := by
      unfold Char.toLower
      rw [if_pos h]
    rw [h1]
    unfold Char.isDigit
    have e48 : ∀ d : Char, (decide (d.val ≥ 48)) = (decide (d.toNat ≥ 48)) := by
      intro d
      simp only [ge_iff_le, uint32_le_iff]
      rfl
    have e57 : ∀ d : Char, (decide (d.val ≤ 57)) = (decide (d.toNat ≤ 57)) := by
      intro d
      simp only [uint32_le_iff]
      rfl
    rw [e48, e57, e48, e57, hval]
    have hd2 : decide (c.toNat + 32 ≤ 57) = false := by simp; omega
    have hd3 : decide (c.toNat ≤ 57) = false := by simp; omega
    rw [hd2, hd3, Bool.and_false, Bool.and_false]
  · have h1 : Char.toLower c = c := by
      unfold Char.toLower
      rw [if_neg h]
    rw [h1]

theorem toLower_eq_self {c : Char} (h : ¬(c.toNat ≥ 65 ∧ c.toNat ≤ 90)) :
    Char.toLower c = c := by
  unfold Char.toLower
  rw [if_neg h]

theorem toLower_toLower (c : Char) : Char.toLower (Char.toLower c) = Char.toLower c := by
  by_cases h : c.toNat ≥ 65 ∧ c.toNat ≤ 90
  · have hv : (c.toNat + 32).isValidChar := Or.inl (by omega)
    have hval : (Char.ofNat (c.toNat + 32)).toNat = c.toNat + 32 := by
      unfold Char.ofNat
      rw [dif_pos hv]
      exact BitVec.toNat_ofNatLt _ _
    have h1 : Char.toLower c = Char.ofNat (c.toNat + 32) := by
      unfold Char.toLower
      rw [if_pos h]
    have h2 : ¬((Char.ofNat (c.toNat + 32)).toNat ≥ 65 ∧
        (Char.ofNat (c.toNat + 32)).toNat ≤ 90) := by
      rw [hval]
      omega
    rw [h1, toLower_eq_self h2]
  · rw [toLower_eq_self h, toLower_eq_self h]

theorem toLower_of_isDigit {c : Char} (h : c.isDigit = true) : Char.toLower c = c := by
  apply toLower_eq_self
  unfold Char.isDigit at h
  rw [Bool.and_eq_true, decide_eq_true_iff, decide_eq_true_iff] at h
  obtain ⟨h1, h2⟩ := h
  rw [ge_iff_le, uint32_le_iff] at h1
  rw [uint32_le_iff] at h2
  have e48 : (48 : UInt32).toNat = 48 := rfl
  have e57 : (57 : UInt32).toNat = 57 := rfl
  rw [e48] at h1
  rw [e57] at h2
  have hc : c.toNat = c.val.toNat := rfl
  rw [hc]
  omega

theorem charCmp_eq_iff {a b : Char} : charCmp a b = .eq ↔ a = b := by
  unfold charCmp
  rcases lt_trichotomy a b with h | h | h
  · rw [if_pos h]
    simp [h.ne]
  · subst h
    rw [if_neg (lt_irrefl a), if_neg (lt_irrefl a)]
    simp
  · rw [if_neg (asymm h), if_pos h]
    simp [h.ne']

theorem charCmp_lt_iff {a b : Char} : charCmp a b = .lt ↔ a < b := by
  unfold charCmp
  split
  · next h => simp [h]
  · next h => split <;> simp [h]

theorem charCmp_gt_iff {a b : Char} : charCmp a b = .gt ↔ b < a := by
  unfold charCmp
  split
  · next h => simp [asymm h]
  · next h =>
    split
    · next h2 => simp [h2]
    · next h2 => simp [h2]

theorem charCmp_swap (a b : Char) : charCmp a b = (charCmp b a).swap := by
  rcases lt_trichotomy a b with h | h | h
  · rw [show charCmp a b = .lt from charCmp_lt_iff.mpr h,
      show charCmp b a = .gt from charCmp_gt_iff.mpr h]
    rfl
  · subst h
    rw [show charCmp a a = .eq from charCmp_eq_iff.mpr rfl]
    rfl
  · rw [show charCmp a b = .gt from charCmp_gt_iff.mpr h,
      show charCmp b a = .lt from charCmp_lt_iff.mpr h]
    rfl

theorem natCmp_eq_iff {a b : Nat} : natCmp a b = .eq ↔ a = b := by
  unfold natCmp
  rcases lt_trichotomy a b with h | h | h
  · rw [if_pos h]
    simp [h.ne]
  · subst h
    rw [if_neg (lt_irrefl a), if_neg (lt_irrefl a)]
    simp
  · rw [if_neg (asymm h), if_pos h]
    simp [h.ne']

theorem natCmp_lt_iff {a b : Nat} : natCmp a b = .lt ↔ a < b := by
  unfold natCmp
  split
  · next h => simp [h]
  · next h => split <;> simp [h]

theorem natCmp_gt_iff {a b : Nat} : natCmp a b = .gt ↔ b < a := by
  unfold natCmp
  split
  · next h => simp [asymm h]
  · next h =>
    split
    · next h2 => simp [h2]
    · next h2 => simp [h2]

theorem natCmp_swap (a b : Nat) : natCmp a b = (natCmp b a).swap := by
  rcases lt_trichotomy a b with h | h | h
  · rw [show natCmp a b = .lt from natCmp_lt_iff.mpr h,
      show natCmp b a = .gt from natCmp_gt_iff.mpr h]
    rfl
  · subst h
    rw [show natCmp a a = .eq from natCmp_eq_iff.mpr rfl]
    rfl
  · rw [show natCmp a b = .gt from natCmp_gt_iff.mpr h,
      show natCmp b a = .lt from natCmp_lt_iff.mpr h]
    rfl

theorem strCmp_eq_iff : ∀ (a b : List Char), strCmp a b = .eq ↔ a = b
  | [], [] => by simp [strCmp]
  | [], _ :: _ => by simp [strCmp]
  | _ :: _, [] => by simp [strCmp]
  | x :: xs, y :: ys => by
    simp only [strCmp]
    cases h : charCmp x y with
    | lt => simp [(charCmp_lt_iff.mp h).ne]
    | gt => simp [(charCmp_gt_iff.mp h).ne']
    | eq =>
      have hxy := charCmp_eq_iff.mp h
      subst hxy
      simp [strCmp_eq_iff xs ys]

theorem strCmp_swap : ∀ (a b : List Char), strCmp a b = (strCmp b a).swap
  | [], [] => rfl
  | [], _ :: _ => rfl
  | _ :: _, [] => rfl
  | x :: xs, y :: ys => by
    simp only [strCmp, charCmp_swap x y]
    cases charCmp y x with
    | lt => rfl
    | gt => rfl
    | eq => exact strCmp_swap xs ys

theorem strCmp_lt_trans : ∀ (a b c : List Char),
    strCmp a b = .lt → strCmp b c = .lt → strCmp a c = .lt
  | [], [], _, h1, _ => by simp [strCmp] at h1
  | [], _ :: _, [], _, h2 => by simp [strCmp] at h2
  | [], _ :: _, _ :: _, _, _ => rfl
  | _ :: _, [], _, h1, _ => by simp [strCmp] at h1
  | _ :: _, _ :: _, [], _, h2 => by simp [strCmp] at h2
  | x :: xs, y :: ys, z :: zs, h1, h2 => by
    cases hxy : charCmp x y with
    | gt => simp [strCmp, hxy] at h1
    | lt =>
      cases hyz : charCmp y z with
      | gt => simp [strCmp, hyz] at h2
      | lt =>
        have hxz : charCmp x z = .lt :=
          charCmp_lt_iff.mpr (lt_trans (charCmp_lt_iff.mp hxy) (charCmp_lt_iff.mp hyz))
        simp [strCmp, hxz]
      | eq =>
        have h := charCmp_eq_iff.mp hyz
        subst h
        simp [strCmp, hxy]
    | eq =>
      have h := charCmp_eq_iff.mp hxy
      subst h
      simp only [strCmp, hxy] at h1
      cases hyz : charCmp x z with
      | gt => simp [strCmp, hyz] at h2
      | lt => simp [strCmp, hyz]
      | eq =>
        simp only [strCmp, hyz] at h2
        simp only [strCmp, hyz]
        exact strCmp_lt_trans xs ys zs h1 h2

theorem tokCmp_eq_of : ∀ {u v : Tok}, tokCmp u v = some .eq → u = v
  | .num a, .num b, h => by
    simp only [tokCmp, Option.some.injEq] at h
    rw [natCmp_eq_iff.mp h]
  | .str a, .str b, h => by
    simp only [tokCmp, Option.some.injEq] at h
    rw [(strCmp_eq_iff a b).mp h]
  | .num _, .str _, h => by simp [tokCmp] at h
  | .str _, .num _, h => by simp [tokCmp] at h

theorem tokCmp_self : ∀ (u : Tok), tokCmp u u = some .eq
  | .num _ => congrArg some (natCmp_eq_iff.mpr rfl)
  | .str a => congrArg some ((strCmp_eq_iff a a).mpr rfl)

theorem tokCmp_swap : ∀ (u v : Tok), tokCmp u v = (tokCmp v u).map Ordering.swap
  | .num a, .num b => by simp [tokCmp, natCmp_swap a b]
  | .str a, .str b => by simp [tokCmp, strCmp_swap a b]
  | .num _, .str _ => rfl
  | .str _, .num _ => rfl

theorem tokCmp_lt_trans : ∀ {u v w : Tok},
    tokCmp u v = some .lt → tokCmp v w = some .lt → tokCmp u w = some .lt
  | .num a, .num b, .num c, h1, h2 => by
    simp only [tokCmp, Option.some.injEq] at h1 h2 ⊢
    exact natCmp_lt_iff.mpr (lt_trans (natCmp_lt_iff.mp h1) (natCmp_lt_iff.mp h2))
  | .str a, .str b, .str c, h1, h2 => by
    simp only [tokCmp, Option.some.injEq] at h1 h2 ⊢
    exact strCmp_lt_trans a b c h1 h2
  | .num _, .str _, _, h1, _ => by simp [tokCmp] at h1
  | .str _, .num _, _, h1, _ => by simp [tokCmp] at h1
  | .num _, .num _, .str _, _, h2 => by simp [tokCmp] at h2
  | .str _, .str _, .num _, _, h2 => by simp [tokCmp] at h2

theorem keyCmp_self : ∀ (k : List Tok), keyCmp k k = some .eq
  | [] => rfl
  | t :: k => by
    simp only [keyCmp, tokCmp_self t]
    exact keyCmp_self k

theorem keyCmp_eq_of : ∀ (k1 k2 : List Tok), keyCmp k1 k2 = some .eq → k1 = k2
  | [], [], _ => rfl
  | [], _ :: _, h => by simp [keyCmp] at h
  | _ :: _, [], h => by simp [keyCmp] at h
  | a :: as, b :: bs, h => by
    cases ht : tokCmp a b with
    | none => simp [keyCmp, ht] at h
    | some o =>
      cases o with
      | lt => simp [keyCmp, ht] at h
      | gt => simp [keyCmp, ht] at h
      | eq =>
        have hab := tokCmp_eq_of ht
        subst hab
        simp only [keyCmp, ht] at h
        rw [keyCmp_eq_of as bs h]

theorem keyCmp_swap : ∀ (k1 k2 : List Tok), keyCmp k1 k2 = (keyCmp k2 k1).map Ordering.swap
  | [], [] => rfl
  | [], _ :: _ => rfl
  | _ :: _, [] => rfl
  | a :: as, b :: bs => by
    simp only [keyCmp, tokCmp_swap a b]
    cases tokCmp b a with
    | none => rfl
    | some o =>
      cases o with
      | lt => rfl
      | gt => rfl
      | eq => exact keyCmp_swap as bs

theorem keyCmp_lt_trans : ∀ (k1 k2 k3 : List Tok),
    keyCmp k1 k2 = some .lt → keyCmp k2 k3 = some .lt → keyCmp k1 k3 = some .lt
  | [], [], _, h1, _ => by simp [keyCmp] at h1
  | [], _ :: _, [], _, h2 => by simp [keyCmp] at h2
  | [], _ :: _, _ :: _, _, _ => rfl
  | _ :: _, [], _, h1, _ => by simp [keyCmp] at h1
  | _ :: _, _ :: _, [], _, h2 => by simp [keyCmp] at h2
  | a :: as, b :: bs, c :: cs, h1, h2 => by
    cases hab : tokCmp a b with
    | none => simp [keyCmp, hab] at h1
    | some o1 =>
      cases o1 with
      | gt => simp [keyCmp, hab] at h1
      | lt =>
        cases hbc : tokCmp b c with
        | none => simp [keyCmp, hbc] at h2
        | some o2 =>
          cases o2 with
          | gt => simp [keyCmp, hbc] at h2
          | lt => simp [keyCmp, tokCmp_lt_trans hab hbc]
          | eq =>
            have h := tokCmp_eq_of hbc
            subst h
            simp [keyCmp, hab]
      | eq =>
        have h := tokCmp_eq_of hab
        subst h
        simp only [keyCmp, hab] at h1
        cases hac : tokCmp a c with
        | none => simp [keyCmp, hac] at h2
        | some o2 =>
          cases o2 with
          | gt => simp [keyCmp, hac] at h2
          | lt => simp [keyCmp, hac]
          | eq =>
            simp only [keyCmp, hac] at h2
            simp only [keyCmp, hac]
            exact keyCmp_lt_trans as bs cs h1 h2

theorem keyCmp_append_lt : ∀ (k e : List Tok), e ≠ [] → keyCmp k (k ++ e) = some .lt
  | [], [], h => absurd rfl h
  | [], _ :: _, _ => rfl
  | t :: k, e, h => by
    simp only [List.cons_append, keyCmp, tokCmp_self t]
    exact keyCmp_append_lt k e h

/-- Shape of keys produced by `natural_key`: a text token, then alternating numeric
and text tokens, ending in a text token. -/
def goodKey : List Tok → Bool
  | [Tok.str _] => true
  | Tok.str _ :: Tok.num _ :: rest => goodKey rest
  | _ => false

theorem goodKey_shape : ∀ {k : List Tok}, goodKey k = true →
    (∃ s, k = [Tok.str s]) ∨ ∃ s n r, k = Tok.str s :: Tok.num n :: r ∧ goodKey r = true
  | [Tok.str s], _ => Or.inl ⟨s, rfl⟩
  | Tok.str s :: Tok.num n :: r, h => Or.inr ⟨s, n, r, rfl, h⟩
  | [], h => by simp [goodKey] at h
  | Tok.num _ :: _, h => by simp [goodKey] at h
  | Tok.str _ :: Tok.str _ :: _, h => by simp [goodKey] at h

theorem length_dropWhile_le (p : α → Bool) : ∀ (l : List α), (l.dropWhile p).length ≤ l.length
  | [] => le_refl _
  | a :: l => by
    rw [List.dropWhile_cons]
    split
    · exact le_trans (length_dropWhile_le p l) (Nat.le_succ _)
    · exact le_refl _

theorem dropWhile_head_false {p : α → Bool} :
    ∀ {l : List α} {c : α} {t : List α}, l.dropWhile p = c :: t → p c = false
  | [], _, _, h => by simp at h
  | a :: l, c, t, h => by
    rw [List.dropWhile_cons] at h
    split at h
    · exact dropWhile_head_false h
    · next hp =>
      injection h with h1 _
      subst h1
      simp at hp
      exact hp

theorem goodKey_natKeyF : ∀ (fuel : Nat) (cs : List Char),
    cs.length < fuel → goodKey (natKeyF fuel cs) = true := by
  intro fuel
  induction fuel with
  | zero => intro cs h; omega
  | succ fuel ih =>
    intro cs hcs
    simp only [natKeyF]
    cases hdw : cs.dropWhile nonDigit with
    | nil => simp [goodKey]
    | cons c t =>
      simp only [goodKey]
      apply ih
      have hlen1 : (c :: t).length ≤ cs.length := hdw ▸ length_dropWhile_le nonDigit cs
      have hc : nonDigit c = false := dropWhile_head_false hdw
      have hcd : c.isDigit = true := by
        simp [nonDigit] at hc
        exact hc
      have hdd : (c :: t).dropWhile Char.isDigit = t.dropWhile Char.isDigit := by
        rw [List.dropWhile_cons, if_pos hcd]
      rw [hdd]
      have h2 := length_dropWhile_le Char.isDigit t
      simp only [List.length_cons] at hlen1
      omega

theorem goodKey_natKey (cs : List Char) : goodKey (natKey cs) = true :=
  goodKey_natKeyF _ cs (Nat.lt_succ_self _)

theorem keyCmp_isSome_aux : ∀ (n : Nat) (k1 k2 : List Tok), k1.length ≤ n →
    goodKey k1 = true → goodKey k2 = true → (keyCmp k1 k2).isSome = true := by
  intro n
  induction n with
  | zero =>
    intro k1 k2 hlen hg1 _
    rcases goodKey_shape hg1 with ⟨s, rfl⟩ | ⟨s, m, r1, rfl, _⟩ <;> simp at hlen
  | succ n ih =>
    intro k1 k2 hlen hg1 hg2
    rcases goodKey_shape hg1 with ⟨s, rfl⟩ | ⟨s, m, r1, rfl, hr1⟩ <;>
      rcases goodKey_shape hg2 with ⟨t, rfl⟩ | ⟨t, p, r2, rfl, hr2⟩
    · cases h : strCmp s t <;> simp [keyCmp, tokCmp, h]
    · cases h : strCmp s t <;> simp [keyCmp, tokCmp, h]
    · cases h : strCmp s t <;> simp [keyCmp, tokCmp, h]
    · cases h : strCmp s t with
      | lt => simp [keyCmp, tokCmp, h]
      | gt => simp [keyCmp, tokCmp, h]
      | eq =>
        simp only [keyCmp, tokCmp, h]
        cases h2 : natCmp m p with
        | lt => simp
        | gt => simp
        | eq =>
          have hr1n : r1.length ≤ n := by
            simp only [List.length_cons] at hlen
            omega
          exact ih r1 r2 hr1n hr1 hr2

theorem keyCmp_natKey_isSome (a b : List Char) :
    (keyCmp (natKey a) (natKey b)).isSome = true :=
  keyCmp_isSome_aux (natKey a).length _ _ (le_refl _) (goodKey_natKey a) (goodKey_natKey b)

theorem map_toLower_of_digits : ∀ {ds : List Char}, (∀ c ∈ ds, c.isDigit = true) →
    ds.map Char.toLower = ds
  | [], _ => rfl
  | c :: t, h => by
    simp only [List.map_cons]
    rw [toLower_of_isDigit (h c (by simp)),
      map_toLower_of_digits (fun x hx => h x (by simp [hx]))]

theorem natKeyF_map_toLower : ∀ (fuel : Nat) (cs : List Char),
    natKeyF fuel (cs.map Char.toLower) = natKeyF fuel cs := by
  intro fuel
  induction fuel with
  | zero => intro _; rfl
  | succ fuel ih =>
    intro cs
    have hpd : (nonDigit ∘ Char.toLower) = nonDigit := by
      funext c
      simp [Function.comp, nonDigit, isDigit_toLower]
    have hid : (Char.isDigit ∘ Char.toLower) = Char.isDigit := by
      funext c
      simp [Function.comp, isDigit_toLower]
    have hll : ∀ l : List Char, (l.map Char.toLower).map Char.toLower = l.map Char.toLower := by
      intro l
      rw [List.map_map]
      congr 1
      funext c
      exact toLower_toLower c
    have hmap : (cs.map Char.toLower).dropWhile nonDigit =
        (cs.dropWhile nonDigit).map Char.toLower := by
      rw [List.dropWhile_map, hpd]
    have htake : (cs.map Char.toLower).takeWhile nonDigit =
        (cs.takeWhile nonDigit).map Char.toLower := by
      rw [List.takeWhile_map, hpd]
    cases hdw : cs.dropWhile nonDigit with
    | nil =>
      rw [hdw] at hmap
      simp only [natKeyF, hmap, hdw, htake, hll, List.map_nil]
    | cons c t =>
      rw [hdw] at hmap
      simp only [natKeyF, hmap, hdw, htake, hll, List.map_cons]
      rw [← List.map_cons Char.toLower c t]
      rw [List.takeWhile_map, List.dropWhile_map, hid]
      rw [map_toLower_of_digits (fun x hx => List.mem_takeWhile_imp hx)]
      rw [ih]

theorem natKey_map_toLower (cs : List Char) : natKey (cs.map Char.toLower) = natKey cs := by
  unfold natKey
  rw [List.length_map]
  exact natKeyF_map_toLower _ cs

theorem natKey_all_digits : ∀ {ds : List Char}, ds ≠ [] → (∀ c ∈ ds, c.isDigit = true) →
    natKey ds = [Tok.str [], Tok.num (digitsVal ds), Tok.str []]
  | [], hne, _ => absurd rfl hne
  | c :: t, _, hd => by
    have hc : c.isDigit = true := hd c (by simp)
    have htw : (c :: t).takeWhile nonDigit = [] := by
      rw [List.takeWhile_cons]
      simp [nonDigit, hc]
    have hdw : (c :: t).dropWhile nonDigit = c :: t := by
      rw [List.dropWhile_cons]
      simp [nonDigit, hc]
    have htd : (c :: t).takeWhile Char.isDigit = c :: t := List.takeWhile_eq_self_iff.mpr hd
    have hdd : (c :: t).dropWhile Char.isDigit = [] := List.dropWhile_eq_nil_iff.mpr hd
    show natKeyF (t.length + 1 + 1) (c :: t) = _
    simp only [natKeyF, htw, hdw, htd, hdd, List.map_nil, List.takeWhile_nil,
      List.dropWhile_nil]

theorem keyCmp_digit_runs {ds es : List Char} (h1 : ds ≠ []) (h2 : es ≠ [])
    (hd1 : ∀ c ∈ ds, c.isDigit = true) (hd2 : ∀ c ∈ es, c.isDigit = true) :
    keyCmp (natKey ds) (natKey es) = some (natCmp (digitsVal ds) (digitsVal es)) := by
  rw [natKey_all_digits h1 hd1, natKey_all_digits h2 hd2]
  cases h : natCmp (digitsVal ds) (digitsVal es) with
  | lt => simp [keyCmp, tokCmp, strCmp, h]
  | gt => simp [keyCmp, tokCmp, strCmp, h]
  | eq => simp [keyCmp, tokCmp, strCmp, h]

/-! ### Claim C2 -/

/-- C2 counterexample: the comparison induced by `natural_key` is not a strict total
order (not antisymmetric) on file names: the distinct names `a1` and `A1` compare
equal, because non-digit runs are lowercased before comparison. -/
theorem natural_key_equal_keys_distinct_names :
    keyCmp (natKey "a1".data) (natKey "A1".data) = some .eq ∧ "a1".data ≠ "A1".data :=
  ⟨by decide, by decide⟩

/-- C2 (amended): the comparison induced by `natural_key` is a total preorder on file
names — transitive, total (always defined), deterministic, with `compare` flipping
under argument swap — and it is antisymmetric at the level of keys (an `eq` outcome
means the two keys coincide), though distinct names may share a key (case or leading
zeros). A digit run compares by its numeric value, a non-digit run compares
case-insensitively (lowercasing a name leaves its key unchanged), a token sequence
sorts before any strict prefix-extension of itself, and
`["img2.png","img10.png","img1.png"]` sorts to `["img1.png","img2.png","img10.png"]`. -/
theorem natural_key_order_properties :
    (∀ a b c : List Char, keyCmp (natKey a) (natKey b) = some .lt →
      keyCmp (natKey b) (natKey c) = some .lt → keyCmp (natKey a) (natKey c) = some .lt)
  ∧ (∀ a b : List Char, (keyCmp (natKey a) (natKey b)).isSome = true)
  ∧ (∀ a b : List Char, keyCmp (natKey a) (natKey b) =
      (keyCmp (natKey b) (natKey a)).map Ordering.swap)
  ∧ (∀ a b : List Char, keyCmp (natKey a) (natKey b) = some .eq → natKey a = natKey b)
  ∧ (∀ cs : List Char, natKey (cs.map Char.toLower) = natKey cs)
  ∧ (∀ ds es : List Char, ds ≠ [] → es ≠ [] → (∀ c ∈ ds, c.isDigit = true) →
      (∀ c ∈ es, c.isDigit = true) →
      keyCmp (natKey ds) (natKey es) = some (natCmp (digitsVal ds) (digitsVal es)))
  ∧ (∀ k e : List Tok, e ≠ [] → keyCmp k (k ++ e) = some .lt)
  ∧ sortNames ["img2.png".data, "img10.png".data, "img1.png".data] =
      ["img1.png".data, "img2.png".data, "img10.png".data] := by
  refine ⟨?_, ?_, ?_, ?_, ?_, ?_, ?_, ?_⟩
  · intro a b c h1 h2
    exact keyCmp_lt_trans _ _ _ h1 h2
  · intro a b
    exact keyCmp_natKey_isSome a b
  · intro a b
    exact keyCmp_swap _ _
  · intro a b h
    exact keyCmp_eq_of _ _ h
  · exact natKey_map_toLower
  · intro ds es h1 h2 hd1 hd2
    exact keyCmp_digit_runs h1 h2 hd1 hd2
  · intro k e h
    exact keyCmp_append_lt k e h
  · decide

/-- Witness for C2: transitivity and the numeric digit-run rule at concrete names. -/
theorem natural_key_order_properties_witness :
    keyCmp (natKey "007".data) (natKey "7".data) =
      some (natCmp (digitsVal "007".data) (digitsVal "7".data)) ∧
    keyCmp (natKey "a1".data) (natKey "a10".data) = some .lt :=
  ⟨natural_key_order_properties.2.2.2.2.2.1 "007".data "7".data
      (by decide) (by decide) (by decide) (by decide),
    natural_key_order_properties.1 "a1".data "a2".data "a10".data (by decide) (by decide)⟩

/-! ### Tokenizer lemmas (claims C4 and C10) -/

theorem dropStep_open_brace (st : DropSt) : dropStep st '\x7b' = ⟨st.paths, [], true⟩ := by
  unfold dropStep
  rw [if_pos rfl]

theorem dropStep_space_inside {st : DropSt} {ch : Char} (h1 : st.inBrace = true)
    (h2 : pyIsSpace ch = true) : dropStep st ch = ⟨st.paths, st.buf ++ [ch], true⟩ := by
  have hb1 : ch ≠ '\x7b' := by
    rintro rfl
    simp [pyIsSpace] at h2
  have hb2 : ch ≠ '\x7d' := by
    rintro rfl
    simp [pyIsSpace] at h2
  unfold dropStep
  rw [if_neg hb1, if_neg hb2, if_neg (by simp [h1]), h1]

theorem dropStep_space_outside {st : DropSt} {ch : Char} (h1 : st.inBrace = false)
    (h2 : pyIsSpace ch = true) :
    dropStep st ch = if st.buf.isEmpty then st else ⟨st.paths ++ [st.buf], [], false⟩ := by
  have hb1 : ch ≠ '\x7b' := by
    rintro rfl
    simp [pyIsSpace] at h2
  have hb2 : ch ≠ '\x7d' := by
    rintro rfl
    simp [pyIsSpace] at h2
  unfold dropStep
  rw [if_neg hb1, if_neg hb2, if_pos (by simp [h1, h2]), h1]

theorem dropStep_inv {st : DropSt}
    (h1 : ∀ t ∈ st.paths, t ≠ [] ∧ '\x7b' ∉ t ∧ '\x7d' ∉ t)
    (h2 : '\x7b' ∉ st.buf ∧ '\x7d' ∉ st.buf) (ch : Char) :
    (∀ t ∈ (dropStep st ch).paths, t ≠ [] ∧ '\x7b' ∉ t ∧ '\x7d' ∉ t) ∧
    ('\x7b' ∉ (dropStep st ch).buf ∧ '\x7d' ∉ (dropStep st ch).buf) := by
  have hflush : ¬st.buf.isEmpty = true →
      ∀ t ∈ st.paths ++ [st.buf], t ≠ [] ∧ '\x7b' ∉ t ∧ '\x7d' ∉ t := by
    intro hbe t ht
    rcases List.mem_append.mp ht with h | h
    · exact h1 t h
    · have ht2 : t = st.buf := by simpa using h
      subst ht2
      refine ⟨?_, h2.1, h2.2⟩
      intro he
      rw [he] at hbe
      simp at hbe
  unfold dropStep
  split
  · exact ⟨h1, by simp⟩
  · next hb1 =>
    split
    · split
      · exact ⟨h1, by simp⟩
      · next hbe => exact ⟨hflush hbe, by simp⟩
    · next hb2 =>
      split
      · split
        · exact ⟨h1, h2⟩
        · next hbe => exact ⟨hflush hbe, by simp⟩
      · refine ⟨h1, ?_, ?_⟩
        · simp only [List.mem_append, List.mem_singleton]
          rintro (h | h)
          · exact h2.1 h
          · exact hb1 h.symm
        · simp only [List.mem_append, List.mem_singleton]
          rintro (h | h)
          · exact h2.2 h
          · exact hb2 h.symm

theorem foldl_dropStep_inv : ∀ (raw : List Char) (st : DropSt),
    (∀ t ∈ st.paths, t ≠ [] ∧ '\x7b' ∉ t ∧ '\x7d' ∉ t) →
    ('\x7b' ∉ st.buf ∧ '\x7d' ∉ st.buf) →
    (∀ t ∈ (raw.foldl dropStep st).paths, t ≠ [] ∧ '\x7b' ∉ t ∧ '\x7d' ∉ t) ∧
    ('\x7b' ∉ (raw.foldl dropStep st).buf ∧ '\x7d' ∉ (raw.foldl dropStep st).buf)
  | [], _, h1, h2 => ⟨h1, h2⟩
  | c :: raw, st, h1, h2 => by
    simp only [List.foldl_cons]
    obtain ⟨g1, g2⟩ := dropStep_inv h1 h2 c
    exact foldl_dropStep_inv raw _ g1 g2

theorem parse_drop_tokens {raw t : List Char} (ht : t ∈ parse_drop raw) :
    t ≠ [] ∧ '\x7b' ∉ t ∧ '\x7d' ∉ t := by
  rcases foldl_dropStep_inv raw ⟨[], [], false⟩ (by simp) (by simp) with ⟨g1, g2⟩
  simp only [parse_drop] at ht
  split at ht
  · exact g1 t ht
  · next hb =>
    rcases List.mem_append.mp ht with h | h
    · exact g1 t h
    · have ht2 : t = (raw.foldl dropStep ⟨[], [], false⟩).buf := by simpa using h
      subst ht2
      refine ⟨?_, g2⟩
      intro he
      rw [he] at hb
      simp at hb

theorem parse_drop_flush {raw : List Char}
    (h : (raw.foldl dropStep ⟨[], [], false⟩).buf ≠ []) :
    parse_drop raw = (raw.foldl dropStep ⟨[], [], false⟩).paths ++
      [(raw.foldl dropStep ⟨[], [], false⟩).buf] := by
  simp only [parse_drop]
  rw [if_neg (by simp [h])]

theorem foldl_dropStep_bare : ∀ (p buf : List Char),
    (∀ c ∈ p, pyIsSpace c = false ∧ c ≠ '\x7b' ∧ c ≠ '\x7d') →
    p.foldl dropStep ⟨[], buf, false⟩ = ⟨[], buf ++ p, false⟩
  | [], buf, _ => by simp
  | c :: p, buf, h => by
    obtain ⟨hs, hb1, hb2⟩ := h c (by simp)
    simp only [List.foldl_cons]
    have hstep : dropStep ⟨[], buf, false⟩ c = ⟨[], buf ++ [c], false⟩ := by
      unfold dropStep
      rw [if_neg hb1, if_neg hb2, if_neg (by simp [hs])]
    rw [hstep, foldl_dropStep_bare p (buf ++ [c]) (fun x hx => h x (by simp [hx]))]
    simp

/-! ### Claim C4 -/

/-- C4: in the drop tokenizer, every emitted token is non-empty and contains no brace
character; whitespace inside braces is appended to the current token; whitespace
outside braces flushes a non-empty token and emits nothing for an empty one; a
token in progress at end-of-input is flushed; and concretely,
`"{C:\My Pics\a.png} C:\b.png"` parses to exactly the two tokens
`C:\My Pics\a.png` and `C:\b.png`, an empty brace pair emits nothing, and an
unmatched open brace is tolerated. -/
theorem on_drop_tokenizer_spec :
    (∀ raw t : List Char, t ∈ parse_drop raw → t ≠ [] ∧ '\x7b' ∉ t ∧ '\x7d' ∉ t)
  ∧ (∀ (st : DropSt) (ch : Char), st.inBrace = true → pyIsSpace ch = true →
      dropStep st ch = ⟨st.paths, st.buf ++ [ch], true⟩)
  ∧ (∀ (st : DropSt) (ch : Char), st.inBrace = false → pyIsSpace ch = true →
      dropStep st ch = if st.buf.isEmpty then st else ⟨st.paths ++ [st.buf], [], false⟩)
  ∧ (∀ raw : List Char, (raw.foldl dropStep ⟨[], [], false⟩).buf ≠ [] →
      parse_drop raw = (raw.foldl dropStep ⟨[], [], false⟩).paths ++
        [(raw.foldl dropStep ⟨[], [], false⟩).buf])
  ∧ parse_drop "\x7bC:\\My Pics\\a.png\x7d C:\\b.png".data =
      ["C:\\My Pics\\a.png".data, "C:\\b.png".data]
  ∧ parse_drop "\x7b\x7d".data = []
  ∧ parse_drop "\x7bab".data = ["ab".data] := by
  refine ⟨?_, ?_, ?_, ?_, by decide, by decide, by decide⟩
  · intro raw t ht
    exact parse_drop_tokens ht
  · intro st ch h1 h2
    exact dropStep_space_inside h1 h2
  · intro st ch h1 h2
    exact dropStep_space_outside h1 h2
  · intro raw h
    exact parse_drop_flush h

/-- Witness for C4 at the concrete payload of the claim. -/
theorem on_drop_tokenizer_spec_witness :
    "C:\\b.png".data ≠ [] ∧ '\x7b' ∉ "C:\\b.png".data ∧ '\x7d' ∉ "C:\\b.png".data :=
  on_drop_tokenizer_spec.1 "\x7bC:\\My Pics\\a.png\x7d C:\\b.png".data
    "C:\\b.png".data (by decide)

/-! ### Claim C10 -/

/-- C10: an opening brace unconditionally resets the in-progress buffer: bare
characters immediately preceding a brace are discarded (`"abc{d e}"` emits only
`d e`), and an inner open brace discards what accumulated since the outer one
(`"{a b{c d}"` emits only `c d`). -/
theorem on_drop_brace_resets_buffer :
    (∀ st : DropSt, dropStep st '\x7b' = ⟨st.paths, [], true⟩)
  ∧ (∀ p rest : List Char, (∀ c ∈ p, pyIsSpace c = false ∧ c ≠ '\x7b' ∧ c ≠ '\x7d') →
      parse_drop (p ++ '\x7b' :: rest) = parse_drop ('\x7b' :: rest))
  ∧ parse_drop "abc\x7bd e\x7d".data = ["d e".data]
  ∧ parse_drop "\x7ba b\x7bc d\x7d".data = ["c d".data] := by
  refine ⟨dropStep_open_brace, ?_, by decide, by decide⟩
  intro p rest h
  simp only [parse_drop, List.foldl_append, List.foldl_cons]
  rw [foldl_dropStep_bare p [] h, dropStep_open_brace, dropStep_open_brace]

/-- Witness for C10: dropping the bare prefix `abc` before a braced group. -/
theorem on_drop_brace_resets_buffer_witness :
    parse_drop ("abc".data ++ '\x7b' :: "d e\x7d".data) =
      parse_drop ('\x7b' :: "d e\x7d".data) :=
  on_drop_brace_resets_buffer.2.1 "abc".data "d e\x7d".data (by decide)

/-! ### Common-path lemmas (claim C7) -/

/-- Component-wise prefix test between paths: the candidate never splits inside a
name component. -/
def pfxB : Path → Path → Bool
  | [], _ => true
  | _ :: _, [] => false
  | a :: as, b :: bs => decide (a = b) && pfxB as bs

theorem pfxB_refl : ∀ (p : Path), pfxB p p = true
  | [] => rfl
  | a :: as => by simp [pfxB, pfxB_refl as]

theorem pfxB_trans : ∀ {a b c : Path}, pfxB a b = true → pfxB b c = true → pfxB a c = true
  | [], _, _, _, _ => rfl
  | _ :: _, [], _, h1, _ => by simp [pfxB] at h1
  | _ :: _, _ :: _, [], _, h2 => by simp [pfxB] at h2
  | a :: as, b :: bs, c :: cs, h1, h2 => by
    simp only [pfxB, Bool.and_eq_true, decide_eq_true_eq] at h1 h2 ⊢
    exact ⟨h1.1.trans h2.1, pfxB_trans h1.2 h2.2⟩

theorem pfxB_cpfx_left : ∀ (a b : Path), pfxB (cpfx a b) a = true
  | [], _ => rfl
  | _ :: _, [] => rfl
  | a :: as, b :: bs => by
    simp only [cpfx]
    split
    · simp [pfxB, pfxB_cpfx_left as bs]
    · rfl

theorem pfxB_cpfx_right : ∀ (a b : Path), pfxB (cpfx a b) b = true
  | [], _ => rfl
  | _ :: _, [] => rfl
  | a :: as, b :: bs => by
    simp only [cpfx]
    split
    · next h => simp [pfxB, h, pfxB_cpfx_right as bs]
    · rfl

theorem pfxB_cpfx_greatest : ∀ {q a b : Path},
    pfxB q a = true → pfxB q b = true → pfxB q (cpfx a b) = true
  | [], _, _, _, _ => rfl
  | _ :: _, [], _, h1, _ => by simp [pfxB] at h1
  | _ :: _, _ :: _, [], _, h2 => by simp [pfxB] at h2
  | x :: xs, a :: as, b :: bs, h1, h2 => by
    simp only [pfxB, Bool.and_eq_true, decide_eq_true_eq] at h1 h2
    have hab : a = b := h1.1.symm.trans h2.1
    simp only [cpfx, if_pos hab, pfxB, Bool.and_eq_true, decide_eq_true_eq]
    exact ⟨h1.1, pfxB_cpfx_greatest h1.2 h2.2⟩

theorem pfxB_foldl_acc : ∀ (ps : List Path) (acc : Path), pfxB (ps.foldl cpfx acc) acc = true
  | [], acc => pfxB_refl acc
  | p :: ps, acc => by
    simp only [List.foldl_cons]
    exact pfxB_trans (pfxB_foldl_acc ps (cpfx acc p)) (pfxB_cpfx_left acc p)

theorem pfxB_foldl_mem : ∀ (ps : List Path) (acc p : Path), p ∈ ps →
    pfxB (ps.foldl cpfx acc) p = true
  | [], _, _, h => by simp at h
  | q :: ps, acc, p, h => by
    simp only [List.foldl_cons]
    rcases List.mem_cons.mp h with h | h
    · subst h
      exact pfxB_trans (pfxB_foldl_acc ps (cpfx acc p)) (pfxB_cpfx_right acc p)
    · exact pfxB_foldl_mem ps (cpfx acc q) p h

theorem pfxB_foldl_greatest : ∀ (ps : List Path) (acc q : Path), pfxB q acc = true →
    (∀ p ∈ ps, pfxB q p = true) → pfxB q (ps.foldl cpfx acc) = true
  | [], _, _, h, _ => h
  | p :: ps, acc, q, h, hall => by
    simp only [List.foldl_cons]
    exact pfxB_foldl_greatest ps _ q (pfxB_cpfx_greatest h (hall p (by simp)))
      (fun x hx => hall x (by simp [hx]))

/-! ### Claim C7 -/

/-- C7: `common_parent` fails (raises, here `none`) on an empty list; for a non-empty
list of file paths it returns the component-wise longest common prefix of the files'
parent directories — a common prefix of every parent of which every other common
prefix is itself a prefix, never splitting inside a component — and concretely the
files `/x/y/a.png` and `/x/z/b.png` yield source `/x`. -/
theorem common_parent_spec :
    (∀ isf : Path → Bool, common_parent isf [] = none)
  ∧ (∀ (isf : Path → Bool) (paths : List Path), paths ≠ [] →
      (∀ p ∈ paths, isf p = true) →
      ∃ cp, common_parent isf paths = some cp
        ∧ (∀ p ∈ paths, pfxB cp p.dropLast = true)
        ∧ (∀ q : Path, (∀ p ∈ paths, pfxB q p.dropLast = true) → pfxB q cp = true))
  ∧ common_parent (fun _ => true) [["x", "y", "a.png"], ["x", "z", "b.png"]] =
      some ["x"] := by
  refine ⟨fun _ => rfl, ?_, by decide⟩
  intro isf paths hne hall
  cases paths with
  | nil => exact absurd rfl hne
  | cons p ps =>
    have hmap : (p :: ps).map (fun x => if isf x then x.dropLast else x) =
        (p :: ps).map (fun x => x.dropLast) := by
      apply List.map_congr_left
      intro x hx
      rw [if_pos (hall x hx)]
    refine ⟨commonpath ((p :: ps).map (fun x => x.dropLast)), ?_, ?_, ?_⟩
    · simp only [common_parent, hmap]
    · intro x hx
      simp only [List.map_cons, commonpath]
      rcases List.mem_cons.mp hx with h | h
      · subst h
        exact pfxB_foldl_acc _ _
      · exact pfxB_foldl_mem _ _ _ (List.mem_map_of_mem _ h)
    · intro q hq
      simp only [List.map_cons, commonpath]
      apply pfxB_foldl_greatest
      · exact hq p (by simp)
      · intro y hy
        obtain ⟨x, hx, rfl⟩ := List.mem_map.mp hy
        exact hq x (by simp [hx])

/-- Witness for C7 at the two concrete files of the claim. -/
theorem common_parent_spec_witness :
    ∃ cp, common_parent (fun _ => true) [["x", "y", "a.png"], ["x", "z", "b.png"]] =
        some cp
      ∧ (∀ p ∈ [["x", "y", "a.png"], ["x", "z", "b.png"]], pfxB cp p.dropLast = true)
      ∧ (∀ q : Path, (∀ p ∈ [["x", "y", "a.png"], ["x", "z", "b.png"]],
          pfxB q p.dropLast = true) → pfxB q cp = true) :=
  common_parent_spec.2.1 (fun _ => true) [["x", "y", "a.png"], ["x", "z", "b.png"]]
    (by decide) (by decide)

/-! ### Claim C8 -/

/-- C8: the size audit warns exactly on the images whose readable dimensions multiply
to at least 40,000,000 pixels, carrying the file name and dimensions; an image whose
size cannot be read contributes nothing (no warning, no error); concretely a
7000×6000 image is flagged and a 6000×6000 one is not. -/
theorem warn_huge_images_spec :
    (∀ (r : Path → Option (Nat × Nat)) (ps : List Path) (nm : String) (w h : Nat),
      (nm, w, h) ∈ warn_huge_images r ps ↔
        ∃ p ∈ ps, pathName p = nm ∧ r p = some (w, h) ∧ 40000000 ≤ w * h)
  ∧ (∀ (r : Path → Option (Nat × Nat)) (ps1 ps2 : List Path) (p : Path), r p = none →
      warn_huge_images r (ps1 ++ p :: ps2) = warn_huge_images r (ps1 ++ ps2))
  ∧ warn_huge_images
      (fun p => if p = ["a.png"] then some (7000, 6000)
        else if p = ["b.png"] then some (6000, 6000) else none)
      [["a.png"], ["b.png"]] = [("a.png", 7000, 6000)] := by
  refine ⟨?_, ?_, by decide⟩
  · intro r ps nm w h
    unfold warn_huge_images
    rw [List.mem_filterMap]
    constructor
    · rintro ⟨p, hp, hf⟩
      refine ⟨p, hp, ?_⟩
      cases hr : r p with
      | none =>
        rw [hr] at hf
        simp at hf
      | some wh =>
        obtain ⟨w1, h1⟩ := wh
        rw [hr] at hf
        simp only at hf
        split at hf
        · next hge =>
          simp only [Option.some.injEq, Prod.mk.injEq] at hf
          obtain ⟨e1, e2, e3⟩ := hf
          subst e1
          subst e2
          subst e3
          exact ⟨rfl, rfl, hge⟩
        · simp at hf
    · rintro ⟨p, hp, hnm, hr, hge⟩
      refine ⟨p, hp, ?_⟩
      rw [hr]
      simp only
      rw [if_pos hge, hnm]
  · intro r ps1 ps2 p hp
    unfold warn_huge_images
    rw [List.filterMap_append, List.filterMap_append]
    congr 1
    rw [List.filterMap_cons_none]
    rw [hp]

/-- Witness for C8: a removed unreadable image changes nothing in the audit. -/
theorem warn_huge_images_spec_witness :
    warn_huge_images (fun _ => none) ([["x.png"]] ++ [["bad.png"]] ++ [["y.png"]]) =
      warn_huge_images (fun _ => none) ([["x.png"]] ++ [["y.png"]]) :=
  warn_huge_images_spec.2.1 (fun _ => none) [["x.png"]] [["y.png"]] ["bad.png"] rfl

/-! ### Assembly lemmas (claims C1, C3, C9) -/

theorem mapOpt_forall2 {f : α → Option β} : ∀ {l : List α} {r : List β},
    mapOpt f l = some r → List.Forall₂ (fun a b => f a = some b) l r
  | [], r, h => by
    simp only [mapOpt, Option.some.injEq] at h
    subst h
    exact List.Forall₂.nil
  | a :: as, r, h => by
    simp only [mapOpt] at h
    cases hfa : f a with
    | none =>
      rw [hfa] at h
      simp at h
    | some b =>
      cases hrest : mapOpt f as with
      | none =>
        rw [hfa, hrest] at h
        simp at h
      | some bs =>
        rw [hfa, hrest] at h
        simp only [Option.some.injEq] at h
        subst h
        exact List.Forall₂.cons hfa (mapOpt_forall2 hrest)

theorem convert_success_out {decode : Path → Option PDFPage} {fs : FS}
    {images : List Path} {out : Path} {pages : List PDFPage} (hne : images ≠ [])
    (henc : encodeDoc decode images = some pages) :
    (convert_images_to_pdf decode fs images out).1.files out = some (.pdf pages) ∧
    (convert_images_to_pdf decode fs images out).2 = true := by
  cases images with
  | nil => exact absurd rfl hne
  | cons i is =>
    constructor
    · simp only [convert_images_to_pdf, henc]
      simp [FS.writeAll, FS.openTrunc, FS.mkdirp]
    · simp only [convert_images_to_pdf, henc]

theorem convert_failure_out {decode : Path → Option PDFPage} {fs : FS}
    {images : List Path} {out : Path} (hne : images ≠ [])
    (henc : encodeDoc decode images = none) :
    (convert_images_to_pdf decode fs images out).1.files out = some .empty ∧
    (convert_images_to_pdf decode fs images out).2 = false := by
  cases images with
  | nil => exact absurd rfl hne
  | cons i is =>
    constructor
    · simp only [convert_images_to_pdf, henc]
      simp [FS.openTrunc, FS.mkdirp]
    · simp only [convert_images_to_pdf, henc]

theorem convert_other_files (decode : Path → Option PDFPage) (fs : FS)
    (images : List Path) (out q : Path) (hq : q ≠ out) :
    (convert_images_to_pdf decode fs images out).1.files q = fs.files q := by
  cases images with
  | nil => rfl
  | cons i is =>
    simp only [convert_images_to_pdf]
    cases henc : encodeDoc decode (i :: is) with
    | none => simp [FS.openTrunc, FS.mkdirp, hq]
    | some pages => simp [FS.writeAll, FS.openTrunc, FS.mkdirp, hq]

/-! ### Claim C1 -/

/-- C1 counterexample: with a prior document already at the output path and a single
image that fails to decode, `convert_images_to_pdf` reports failure yet leaves a
truncated empty file at the output path, destroying the prior file — because the
output is opened with mode `"wb"` (truncating) before `img2pdf.convert` runs. -/
theorem convert_truncates_on_failure :
    ((convert_images_to_pdf (fun _ => none)
        ⟨fun q => if q = ["out.pdf"] then some (.pdf [⟨1, 1⟩]) else none, []⟩
        [["a.png"]] ["out.pdf"]).2 = false)
  ∧ ((convert_images_to_pdf (fun _ => none)
        ⟨fun q => if q = ["out.pdf"] then some (.pdf [⟨1, 1⟩]) else none, []⟩
        [["a.png"]] ["out.pdf"]).1.files ["out.pdf"] = some .empty)
  ∧ ((⟨fun q => if q = ["out.pdf"] then some (.pdf [⟨1, 1⟩]) else none, []⟩ : FS).files
        ["out.pdf"] = some (.pdf [⟨1, 1⟩])) :=
  ⟨by decide, by decide, by decide⟩

/-- C1 (amended): for a non-empty image list, the whole document is encoded before
any bytes are written and, on success, the complete document is the file at the
output path; however the output file is created and truncated on open, before
encoding, so on a decode/encode failure the call fails with a zero-length file left
at the output path (a file previously there is destroyed). Paths other than the
output path are never touched. -/
theorem convert_write_behavior (decode : Path → Option PDFPage) (fs : FS)
    (images : List Path) (out : Path) (h : images ≠ []) :
    (∀ pages, encodeDoc decode images = some pages →
      (convert_images_to_pdf decode fs images out).1.files out = some (.pdf pages) ∧
      (convert_images_to_pdf decode fs images out).2 = true)
  ∧ (encodeDoc decode images = none →
      (convert_images_to_pdf decode fs images out).1.files out = some .empty ∧
      (convert_images_to_pdf decode fs images out).2 = false)
  ∧ (∀ q, q ≠ out → (convert_images_to_pdf decode fs images out).1.files q = fs.files q) :=
  ⟨fun _ hp => convert_success_out h hp,
    fun hp => convert_failure_out h hp,
    fun q hq => convert_other_files decode fs images out q hq⟩

/-- Witness for C1 (amended) at a concrete successful and failing run. -/
theorem convert_write_behavior_witness :
    ((convert_images_to_pdf (fun _ => some ⟨800, 600⟩) ⟨fun _ => none, []⟩
        [["a.png"]] ["r", "out.pdf"]).1.files ["r", "out.pdf"] =
      some (.pdf [⟨800, 600⟩]))
  ∧ ((convert_images_to_pdf (fun _ => none) ⟨fun _ => none, []⟩
        [["a.png"]] ["r", "out.pdf"]).1.files ["r", "out.pdf"] = some .empty) :=
  ⟨((convert_write_behavior (fun _ => some ⟨800, 600⟩) ⟨fun _ => none, []⟩
      [["a.png"]] ["r", "out.pdf"] (by decide)).1 [⟨800, 600⟩] (by decide)).1,
    ((convert_write_behavior (fun _ => none) ⟨fun _ => none, []⟩
      [["a.png"]] ["r", "out.pdf"] (by decide)).2.1 (by decide)).1⟩

/-! ### Claim C3 -/

/-- C3: for a non-empty image list whose images all decode, assembly writes a
document with exactly one page per input image, in input order, each page's
dimensions equal to that image's decoded pixel dimensions — no scaling, cropping,
padding or uniform page size, since the page list is exactly the decoded-dimension
list. -/
theorem convert_pages_match_images (decode : Path → Option PDFPage) (fs : FS)
    (images : List Path) (out : Path) (pages : List PDFPage) (hne : images ≠ [])
    (henc : encodeDoc decode images = some pages) :
    (convert_images_to_pdf decode fs images out).1.files out = some (.pdf pages)
  ∧ (convert_images_to_pdf decode fs images out).2 = true
  ∧ pages.length = images.length
  ∧ List.Forall₂ (fun p pg => decode p = some pg) images pages :=
  ⟨(convert_success_out hne henc).1, (convert_success_out hne henc).2,
    (List.Forall₂.length_eq (mapOpt_forall2 henc)).symm, mapOpt_forall2 henc⟩

/-- Witness for C3 at the claim's two-image example A(800×600), B(1200×1600). -/
theorem convert_pages_match_images_witness :
    (convert_images_to_pdf
        (fun p => if p = ["A.png"] then some ⟨800, 600⟩ else some ⟨1200, 1600⟩)
        ⟨fun _ => none, []⟩ [["A.png"], ["B.png"]] ["out.pdf"]).1.files ["out.pdf"] =
      some (.pdf [⟨800, 600⟩, ⟨1200, 1600⟩]) :=
  (convert_pages_match_images
    (fun p => if p = ["A.png"] then some ⟨800, 600⟩ else some ⟨1200, 1600⟩)
    ⟨fun _ => none, []⟩ [["A.png"], ["B.png"]] ["out.pdf"]
    [⟨800, 600⟩, ⟨1200, 1600⟩] (by decide) (by decide)).1

/-! ### Claim C9 -/

/-- C9: calling the assembler with an empty image list raises before any file I/O:
the filesystem comes back completely unchanged — no directory created, no file
opened or written — and the run fails. -/
theorem convert_rejects_empty (decode : Path → Option PDFPage) (fs : FS) (out : Path) :
    convert_images_to_pdf decode fs [] out = (fs, false) := rfl

/-! ### Routing lemmas (claims C5, C6) -/

theorem filter_eq_cons_head {p : α → Bool} :
    ∀ {l : List α} {d : α}, l.find? p = some d → ∃ t, l.filter p = d :: t
  | [], _, h => by simp at h
  | a :: l, d, h => by
    cases hp : p a with
    | true =>
      rw [List.find?_cons_of_pos _ hp] at h
      injection h with h
      subst h
      exact ⟨l.filter p, by rw [List.filter_cons_of_pos hp]⟩
    | false =>
      rw [List.find?_cons_of_neg _ (by simp [hp])] at h
      obtain ⟨t, ht⟩ := filter_eq_cons_head h
      exact ⟨t, by rw [List.filter_cons_of_neg (by simp [hp]), ht]⟩

/-! ### Claim C5 -/

/-- C5: when the dropped paths contain at least one existing directory, exactly the
first such directory (in scan order) is routed through the folder collection path;
every other dropped file or directory is ignored — the outcome equals the outcome
of dropping that directory alone, whatever the previous state was. -/
theorem on_drop_first_folder_routing (E : Env) (prev prev2 : SelectionState)
    (dropped : List Path) (d : Path)
    (h : dropped.find? (fun p => E.fexists p && E.isDir p) = some d) :
    on_drop E prev dropped =
      (⟨"folder", some d, list_images_in_folder E d⟩, (list_images_in_folder E d).isEmpty)
  ∧ on_drop E prev dropped = on_drop E prev2 [d] := by
  obtain ⟨t, ht⟩ := filter_eq_cons_head h
  have hd : (E.fexists d && E.isDir d) = true := by
    have hd0 := List.find?_some h
    simpa using hd0
  have h1 : on_drop E prev dropped =
      (⟨"folder", some d, list_images_in_folder E d⟩,
        (list_images_in_folder E d).isEmpty) := by
    simp only [on_drop, ht]
  have h2 : [d].filter (fun p => E.fexists p && E.isDir p) = [d] := by
    simp only [List.filter_cons, List.filter_nil, hd]
    rfl
  refine ⟨h1, h1.trans ?_⟩
  simp only [on_drop, h2]

/-- Witness for C5: a drop of a file, a directory and another path routes as if the
directory alone had been dropped. -/
theorem on_drop_first_folder_routing_witness :
    on_drop ⟨fun _ => true, fun p => decide (p = ["d"]), fun _ => false, fun _ => []⟩
        ⟨"x", none, []⟩ [["f.png"], ["d"], ["e"]] =
      on_drop ⟨fun _ => true, fun p => decide (p = ["d"]), fun _ => false, fun _ => []⟩
        ⟨"y", none, []⟩ [["d"]] :=
  (on_drop_first_folder_routing
    ⟨fun _ => true, fun p => decide (p = ["d"]), fun _ => false, fun _ => []⟩
    ⟨"x", none, []⟩ ⟨"y", none, []⟩ [["f.png"], ["d"], ["e"]] ["d"] (by decide)).2

/-! ### Claim C6 -/

/-- C6: when explicit file inputs contain no path passing the image classifier — a
non-empty file pick whose filtered set is empty, or a drop with no existing
directory and no existing image file — the advisory is signalled (second component
`true`) and the previous selection state is returned completely unchanged. -/
theorem empty_selection_preserves_state :
    (∀ (E : Env) (prev : SelectionState) (fps : List Path), fps ≠ [] →
      fps.filter (fun p => is_image E p) = [] → pick_files E prev fps = (prev, true))
  ∧ (∀ (E : Env) (prev : SelectionState) (dropped : List Path),
      dropped.filter (fun p => E.fexists p && E.isDir p) = [] →
      dropped.filter (fun p => E.fexists p && is_image E p) = [] →
      on_drop E prev dropped = (prev, true)) := by
  constructor
  · intro E prev fps hne hfil
    cases fps with
    | nil => exact absurd rfl hne
    | cons f fs => simp only [pick_files, hfil]
  · intro E prev dropped h1 h2
    simp only [on_drop, h1, h2]

/-- Witness for C6: a pick of a lone text file leaves the prior selection intact. -/
theorem empty_selection_preserves_state_witness :
    pick_files ⟨fun _ => false, fun _ => false, fun _ => false, fun _ => []⟩
        ⟨"folder", some ["s"], [["i.png"]]⟩ [["a.txt"]] =
      (⟨"folder", some ["s"], [["i.png"]]⟩, true) :=
  empty_selection_preserves_state.1
    ⟨fun _ => false, fun _ => false, fun _ => false, fun _ => []⟩
    ⟨"folder", some ["s"], [["i.png"]]⟩ [["a.txt"]] (by decide) (by decide)

end ImgToPDF
